import Mathlib

/-!
# Verification of the `paper_scout` heuristic relevance-scoring engine

Shallow embedding of the core of the `ai-paper-scout` repository:

* `src/paper_scout/benchmarks.py` — the Benchmark Extractor
  (`BENCHMARKS` table, `_norm`, `extract_benchmarks`);
* `src/paper_scout/scoring.py` — the Fit Scorer
  (`FitResult`, `_norm`, `_hit`, the rule tables and `score_spoj_fit`);
* `src/paper_scout/pitch.py` — the Pitch Builder (`build_spoj_pitch`);
* the fields of the `Paper` model in `src/paper_scout/models.py` that these read.

Strings are modelled as `List Char` at the character level.  Python's
`re` patterns used by the code form a small fragment (literals,
character classes, alternation, optional pieces, the word boundary
`\x5cb`, and one negative lookahead); that fragment is embedded as the
inductive `RE` with an executable backtracking matcher.  Python string
semantics (`lower`, `strip`, whitespace) are modelled at the ASCII
level, which is exact for the rule tables (all-ASCII) and for every
concrete input used below.
-/

set_option maxHeartbeats 1000000

namespace PaperScout

/-- Python word character for `\x5cb` / `\x5cw`: letters, digits, underscore
(ASCII model of the default Unicode word class of `re`). -/
def isWordChar (c : Char) : Bool :=
  c.isAlphanum || c = '_'

def isWordOpt : Option Char → Bool
  | none => false
  | some c => isWordChar c

/-- The regex fragment appearing in the pattern tables of the repository.
No Kleene star/plus occurs in any pattern, so the matcher is
structurally recursive. -/
inductive RE : Type
  | eps : RE
  | ch (c : Char) : RE
  | cls (cs : List Char) : RE
  | seq (a b : RE) : RE
  | alt (a b : RE) : RE
  | opt (a : RE) : RE
  | wb : RE
  | nla (a : RE) : RE
deriving Repr, DecidableEq

/-- All ways a regex can match a prefix of `s`, given the character
just before `s` (needed for `\x5cb`).  Each result is the pair of the
last consumed character and the remaining suffix; results are listed
in the backtracking order of Python (greedy `?`, left alternative first),
so the head is the match `re.search` commits to. -/
def matchAt : RE → Option Char → List Char → List (Option Char × List Char)
  | .eps, p, s => [(p, s)]
  | .ch c, _, s =>
    match s with
    | [] => []
    | d :: rest => if d = c then [(some d, rest)] else []
  | .cls cs, _, s =>
    match s with
    | [] => []
    | d :: rest => if d ∈ cs then [(some d, rest)] else []
  | .seq a b, p, s => (matchAt a p s).flatMap (fun pr => matchAt b pr.1 pr.2)
  | .alt a b, p, s => matchAt a p s ++ matchAt b p s
  | .opt a, p, s => matchAt a p s ++ [(p, s)]
  | .wb, p, s => if isWordOpt p ≠ isWordOpt s.head? then [(p, s)] else []
  | .nla a, p, s => if (matchAt a p s).isEmpty then [(p, s)] else []

/-- Embeds the `re.search` scan: try each start position left to right;
return the (start, end) indices of the leftmost match, or `none`.
`p` is the character before the current suffix, `i` the current
start index. -/
def searchAux (re : RE) (p : Option Char) (s : List Char) (i : Nat) :
    Option (Nat × Nat) :=
  match matchAt re p s with
  | (_, rest) :: _ => some (i, i + (s.length - rest.length))
  | [] =>
    match s with
    | [] => none
    | c :: tail => searchAux re (some c) tail (i + 1)

/-- Embeds `re.search(pat, t)`, returning match bounds. -/
def research (re : RE) (t : List Char) : Option (Nat × Nat) :=
  searchAux re none t 0

/-- Literal string as a regex. -/
def lit (s : String) : RE :=
  s.toList.foldr (fun c r => RE.seq (RE.ch c) r) RE.eps

/-- Wraps `\x5cb…\x5cb` around a literal. -/
def word (s : String) : RE :=
  .seq .wb (.seq (lit s) .wb)

/-- Builds `\x5cb…(suffix)?\x5cb`, e.g. `\x5cbgraph(s)?\x5cb`. -/
def wordOpt (s suffix : String) : RE :=
  .seq .wb (.seq (lit s) (.seq (.opt (lit suffix)) .wb))

/-! ## Normalization (`_norm` of scoring.py and benchmarks.py)

Source: `re.sub(r"\x5cs+", " ", (text or "")).lower().strip()` —
collapse every whitespace run to a single space, lowercase, trim. -/

/-- Python `\x5cs` at the ASCII level. -/
def isWsChar (c : Char) : Bool :=
  c = ' ' || c = '\t' || c = '\n' || c = '\r' || c = '\x0b' || c = '\x0c'

/-- Embeds `re.sub(r"\x5cs+", " ", ·)`: each maximal whitespace run becomes one
space (a whitespace character merges with an already-emitted leading
space of the collapsed tail). -/
def collapseWs : List Char → List Char
  | [] => []
  | c :: rest =>
    if isWsChar c then
      if (collapseWs rest).head? = some ' ' then collapseWs rest
      else ' ' :: collapseWs rest
    else c :: collapseWs rest

/-- Embeds `str.strip()`: drop whitespace from both ends. -/
def stripWs (l : List Char) : List Char :=
  ((l.dropWhile isWsChar).reverse.dropWhile isWsChar).reverse

/-- Embeds `_norm` on character lists. -/
def normChars (l : List Char) : List Char :=
  stripWs ((collapseWs l).map Char.toLower)

/-- Embeds `_norm` (identical in scoring.py and benchmarks.py). -/
def normText (s : String) : String :=
  (normChars s.toList).asString

/-- Embeds `_hit(text, patterns)`:
`any(re.search(p, text) for p in patterns)`. -/
def hit (text : List Char) (patterns : List RE) : Bool :=
  patterns.any (fun p => (research p text).isSome)

/-! ## Benchmark Extractor (`benchmarks.py`) -/

/-- Embeds the `BenchmarkHit` dataclass. -/
structure BenchmarkHit where
  name : String
  weight : Int
  evidence : String
deriving Repr, DecidableEq

/-- One row of the `BENCHMARKS` dict: canonical name → (weight, patterns). -/
structure BenchRow where
  name : String
  weight : Int
  patterns : List RE
deriving Repr

/-- Embeds the `BENCHMARKS` dict in its (insertion-ordered) declaration
order.  Each regex is transcribed pattern-for-pattern from the source. -/
def BENCHMARKS : List BenchRow := [
  -- "SWE-bench": (45, [r"\bswe[- ]bench\b", r"\bswebench\b"])
  ⟨"SWE-bench", 45,
    [.seq .wb (.seq (lit "swe") (.seq (.cls ['-', ' ']) (.seq (lit "bench") .wb))),
     word "swebench"]⟩,
  -- "HumanEval": (40, [r"\bhuman[- ]?eval\b"])
  ⟨"HumanEval", 40,
    [.seq .wb (.seq (lit "human") (.seq (.opt (.cls ['-', ' '])) (.seq (lit "eval") .wb)))]⟩,
  ⟨"MBPP", 35, [word "mbpp"]⟩,
  ⟨"Codeforces", 35, [word "codeforces"]⟩,
  -- "LeetCode": (25, [r"\bleet ?code\b"])
  ⟨"LeetCode", 25,
    [.seq .wb (.seq (lit "leet") (.seq (.opt (.ch ' ')) (.seq (lit "code") .wb)))]⟩,
  -- "APPS": (25, [r"\bapps\b( dataset)?"])
  ⟨"APPS", 25, [.seq .wb (.seq (lit "apps") (.seq .wb (.opt (lit " dataset"))))]⟩,
  -- "DS-1000": (25, [r"\bds[- ]?1000\b"])
  ⟨"DS-1000", 25,
    [.seq .wb (.seq (lit "ds") (.seq (.opt (.cls ['-', ' '])) (.seq (lit "1000") .wb)))]⟩,
  -- "EvalPlus": (20, [r"\bevalplus\b", r"\beval\+\b"])
  ⟨"EvalPlus", 20, [word "evalplus", word "eval+"]⟩,
  ⟨"LiveCodeBench", 30, [word "livecodebench", word "live code bench"]⟩,
  ⟨"CodeContests", 25, [word "codecontests", word "code contests"]⟩,
  ⟨"CruxEval", 20, [word "cruxeval"]⟩,
  -- "RepoBench": (25, [r"\brepobench\b", r"\brepo[- ]bench\b"])
  ⟨"RepoBench", 25,
    [word "repobench",
     .seq .wb (.seq (lit "repo") (.seq (.cls ['-', ' ']) (.seq (lit "bench") .wb)))]⟩,
  ⟨"CodeSearchNet", 15, [word "codesearchnet", word "code search net"]⟩,
  ⟨"MMLU", 15, [word "mmlu"]⟩,
  ⟨"MMMU", 15, [word "mmmu"]⟩,
  ⟨"GSM8K", 10, [word "gsm8k"]⟩,
  -- "ARC": (8, [r"\barc\b(?![- ]?length)"])
  ⟨"ARC", 8,
    [.seq .wb (.seq (lit "arc") (.seq .wb (.nla (.seq (.opt (.cls ['-', ' '])) (lit "length")))))]⟩,
  ⟨"HellaSwag", 8, [word "hellaswag"]⟩,
  ⟨"TruthfulQA", 8, [word "truthfulqa"]⟩,
  -- "Big-Bench": (8, [r"\bbig[- ]bench\b", r"\bbbh\b"])
  ⟨"Big-Bench", 8,
    [.seq .wb (.seq (lit "big") (.seq (.cls ['-', ' ']) (.seq (lit "bench") .wb))),
     word "bbh"]⟩]

/-- Inner loop body of `extract_benchmarks` for a single table row:
try the patterns of the row in order, stop at the first match (`break`),
build the hit with its ±30-character evidence snippet. -/
def rowHit (t : List Char) (row : BenchRow) : Option BenchmarkHit :=
  (row.patterns.findSome? (fun pat => research pat t)).map
    (fun se =>
      { name := row.name, weight := row.weight,
        evidence := ((t.drop (se.1 - 30)).take ((se.2 + 30) - (se.1 - 30))).asString })

/-- The sort key of `hits.sort(key=lambda h: h.weight, reverse=True)`:
weight descending.  The Python `list.sort` is stable; a stable sort by a
total preorder is a unique function of its input, and is embedded here
as the (stable) Mathlib insertion sort. -/
def weightGE (a b : BenchmarkHit) : Prop := b.weight ≤ a.weight

instance : DecidableRel weightGE := fun a b => inferInstanceAs (Decidable (b.weight ≤ a.weight))

instance : IsTotal BenchmarkHit weightGE := ⟨fun a b => le_total b.weight a.weight⟩

instance : IsTrans BenchmarkHit weightGE := ⟨fun _ _ _ h1 h2 => le_trans h2 h1⟩

/-- Embeds `extract_benchmarks(text)`. -/
def extract_benchmarks (text : String) : List BenchmarkHit :=
  let t := normChars text.toList
  let hits := BENCHMARKS.filterMap (rowHit t)
  hits.insertionSort weightGE

/-- Declaration index of a canonical name in the `BENCHMARKS` table. -/
def declIdx (n : String) : Nat :=
  BENCHMARKS.findIdx (fun row => row.name == n)

/-! ## Fit Scorer (`scoring.py`) -/

/-- Embeds the `FitResult` dataclass of scoring.py (fields: `score`,
`tags`, `reasons`; the source has no `benchmarks` field). -/
structure FitResult where
  score : Int
  tags : List String
  reasons : List String
deriving Repr, DecidableEq

/-- The fields of the `Paper` model of models.py read by the embedded components:
`score_spoj_fit` reads `title` and `abstract`; `build_spoj_pitch`
reads `spoj_fit_tags` and `spoj_benchmarks`. -/
structure Paper where
  title : String
  abstract : String
  spoj_fit_tags : List String
  spoj_benchmarks : List String
deriving Repr

/-- Embeds `CORE_CODE_PATTERNS`. -/
def CORE_CODE_PATTERNS : List RE := [
  word "code generation",
  word "program synthesis",
  word "text-to-code",
  word "source code",
  word "compiler",
  -- r"\bcompile(r|d|s)?\b"
  .seq .wb (.seq (lit "compile") (.seq (.opt (.alt (.ch 'r') (.alt (.ch 'd') (.ch 's')))) .wb)),
  word "runtime",
  word "time limit",
  word "memory limit",
  word "wrong answer",
  word "runtime error",
  wordOpt "unit test" "s",
  wordOpt "test case" "s",
  word "online judge",
  word "competitive programming",
  word "humaneval",
  word "mbpp",
  word "swe-bench",
  word "codeforces",
  word "leetcode",
  word "kernel optimization",
  word "cuda"]

/-- Embeds `SOFT_REASONING_PATTERNS`. -/
def SOFT_REASONING_PATTERNS : List RE := [
  word "reasoning",
  word "planning",
  -- r"\bself[- ]consistency\b"
  .seq .wb (.seq (lit "self") (.seq (.cls ['-', ' ']) (.seq (lit "consistency") .wb))),
  word "reflection",
  word "verifier"]

/-- Embeds `ALGO_PATTERNS`. -/
def ALGO_PATTERNS : List RE := [
  word "dynamic programming",
  wordOpt "graph" "s",
  word "shortest path",
  word "minimum spanning tree",
  word "flow",
  word "matching",
  word "combinatorics",
  wordOpt "data structure" "s",
  word "segment tree",
  word "fenwick"]

/-- One entry of the `positive_rules` / `negative_rules` tables:
(tag, patterns, points, reason). -/
structure Rule where
  tag : String
  patterns : List RE
  pts : Int
  reason : String

/-- Embeds the `positive_rules` list local to `score_spoj_fit` (it is
a constant, so it is lifted to a top-level definition). -/
def positive_rules : List Rule := [
  ⟨"code_benchmarks",
    [word "humaneval", word "mbpp", word "swe-bench", word "codeforces", word "leetcode",
     word "competitive programming", word "online judge"], 35,
    "References code benchmarks / online-judge evaluation."⟩,
  ⟨"execution_feedback",
    [word "runtime", word "compiler",
     .seq .wb (.seq (lit "compile") (.seq (.opt (.alt (.ch 'r') (.alt (.ch 'd') (.ch 's')))) .wb)),
     word "judge", wordOpt "unit test" "s", wordOpt "test case" "s",
     word "wrong answer", word "runtime error", word "time limit", word "memory limit"], 40,
    "Uses execution/test feedback signals (matches submissions + verdicts)."⟩,
  ⟨"codegen",
    [word "code generation", word "codegen", word "program synthesis", word "text-to-code"], 35,
    "Focuses on code generation / program synthesis."⟩,
  ⟨"verification",
    [word "formal", word "verification", word "correctness", word "prove",
     word "static analysis", word "type system", word "soundness"], 20,
    "Centered on correctness/verification (fits accepted vs failing traces)."⟩,
  ⟨"algorithms", ALGO_PATTERNS ++ [wordOpt "algorithm" "s"], 20,
    "Mentions classical algorithms/data structures (core SPOJ coverage)."⟩,
  ⟨"code_tasks",
    [wordOpt "program" "ming", word "source code", wordOpt "debug" "ging", word "patch",
     word "bug", word "cuda", word "kernel"], 15,
    "Explicitly about programming/code tasks."⟩,
  ⟨"reasoning", SOFT_REASONING_PATTERNS, 10,
    "Emphasizes reasoning/planning (secondary but useful for SPOJ)."⟩,
  -- one pattern containing a top-level alternation
  ⟨"multilang",
    [.alt (word "python") (.alt (word "c++") (.alt (word "java") (.alt (word "rust")
       (.alt (word "go") (word "javascript")))))], 5,
    "Touches multiple programming languages (SPOJ is multi-language)."⟩]

/-- Embeds the `negative_rules` list local to `score_spoj_fit`.
Source line 113 (`medical_signals`) reads
`[r"\becg\b", r"\beeg\b"\bppg\b", …]`, which is a Python SyntaxError
(a comma and `r` prefix are missing between the `eeg` and `ppg`
patterns); the row is embedded per that evident intent, as the two
patterns `\beeg\b` and `\bppg\b`. -/
def negative_rules : List Rule := [
  ⟨"aerospace_robotics",
    [word "uav", word "airspace", word "flight", word "preflight",
     word "robot", word "manipulation", wordOpt "grasp" "ing", word "trajectory", word "control"],
    -25, "Primarily robotics/aerospace planning; often not code-judge driven."⟩,
  ⟨"info_extraction",
    [word "triplet extraction", word "information extraction", word "financial report"], -15,
    "Primarily NLP extraction; less aligned with code + verdict training."⟩,
  ⟨"climate_geo",
    [word "climate", word "precipitation", word "hydro", word "river basin", word "cmip"], -35,
    "Climate/earth-science focus; unlikely to need SPOJ-like data."⟩,
  ⟨"medical_signals",
    [word "ecg", word "eeg", word "ppg", word "clinical", word "patient", word "medical"], -35,
    "Medical/signal processing focus; unlikely to need SPOJ-like data."⟩,
  ⟨"vision_video",
    [word "video", word "codec", word "keyframe", word "motion vectors", word "image encoder"],
    -20, "Video/vision infrastructure; weak link to code-judge training."⟩,
  ⟨"socio_hci",
    [word "loneliness", word "attachment", word "companion", word "survey"], -20,
    "HCI/behavioral focus; not code dataset driven."⟩]

/-- State threaded through the two rule loops of `score_spoj_fit`:
`score`, `tags`, `reasons_pos`, `reasons_neg`. -/
structure ScAcc where
  score : Int
  tags : List String
  reasonsPos : List String
  reasonsNeg : List String
deriving Repr, DecidableEq

/-- Body of the positive-rules loop:
`score += pts; tags.append(tag); reasons_pos.append(reason)` when the
group fires. -/
def applyPosRule (text : List Char) (acc : ScAcc) (r : Rule) : ScAcc :=
  if hit text r.patterns then
    { acc with
      score := acc.score + r.pts,
      tags := acc.tags ++ [r.tag],
      reasonsPos := acc.reasonsPos ++ [r.reason] }
  else acc

/-- Body of the negative-rules loop.  The Python `int(pts / 2)` is true
division followed by `int` truncation toward zero, i.e. `Int.tdiv`. -/
def applyNegRule (text : List Char) (core : Bool) (acc : ScAcc) (r : Rule) : ScAcc :=
  if hit text r.patterns then
    { acc with
      score := acc.score + (if core then Int.tdiv r.pts 2 else r.pts),
      tags := acc.tags ++ [r.tag],
      reasonsNeg := acc.reasonsNeg ++ [r.reason] }
  else acc

/-- The reason-selection loop of `score_spoj_fit`: copy positive
reasons in firing order, skipping exact duplicates, breaking once
3 are collected. -/
def pickReasons : List String → List String → List String
  | [], acc => acc
  | r :: rest, acc =>
    let acc2 := if r ∈ acc then acc else acc ++ [r]
    if 3 ≤ acc2.length then acc2 else pickReasons rest acc2

/-- The tag-deduplication loop of `score_spoj_fit` (keep first
occurrence, preserve order). -/
def dedupKeepFirst (l : List String) : List String :=
  l.foldl (fun acc t => if t ∈ acc then acc else acc ++ [t]) []

/-- The normalized text scored for a paper:
`_norm(p.title + " " + (p.abstract or ""))`. -/
def scoringText (p : Paper) : List Char :=
  normChars (p.title ++ " " ++ p.abstract).toList

/-- Embeds `score_spoj_fit(p)` (with negative-rules line 113 repaired
as documented at `negative_rules`). -/
def score_spoj_fit (p : Paper) : FitResult :=
  let text := scoringText p
  let core_code_signal := hit text CORE_CODE_PATTERNS
  let a1 := positive_rules.foldl (applyPosRule text) ⟨0, [], [], []⟩
  let a2 := negative_rules.foldl (applyNegRule text core_code_signal) a1
  -- Gate: without core code signal, don't allow high scores
  let s1 := if core_code_signal then a2.score else min a2.score 35
  let s2 := max 0 (min 100 s1)
  let picked := pickReasons a2.reasonsPos []
  let reasons :=
    if picked.isEmpty then
      match a2.reasonsNeg with
      | [] => ["Low direct relevance signals found; needs manual review."]
      | rn :: _ =>
        [rn, "Low direct relevance to code-judge training; likely not SPOJ-driven."]
    else picked
  { score := s2, tags := (dedupKeepFirst a2.tags).take 8, reasons := reasons }

/-! ## Pitch Builder (`pitch.py`) -/

/-- Embeds `build_spoj_pitch(p)`.  Python builds `bullets` by a
sequence of conditional appends and then truncates to 3; that is the
concatenation below.  Membership tests on the `set(...)`s are
order-irrelevant, so the tag/benchmark lists are used directly. -/
def build_spoj_pitch (p : Paper) : String × List String :=
  let tags := p.spoj_fit_tags
  let benches := p.spoj_benchmarks
  let bullets :=
    (if "SWE-bench" ∈ benches ∨ "RepoBench" ∈ benches then
      ["Repo-level code editing + real-world patching signals match SPOJ-style iterative attempts + verdicts."]
     else []) ++
    (if "HumanEval" ∈ benches ∨ "MBPP" ∈ benches ∨ "EvalPlus" ∈ benches then
      ["Strong code-gen evaluation focus → SPOJ adds scale + multi-language + harder long-tail problems."]
     else []) ++
    (if "APPS" ∈ benches ∨ "Codeforces" ∈ benches ∨ "CodeContests" ∈ benches then
      ["Competitive-programming / algorithmic eval → direct overlap with SPOJ problem distribution."]
     else []) ++
    (if "verition" ∈ tags then
      ["Correctness/verification angle → SPOJ provides accepted vs failing traces and error modes."]
     else []) ++
    (if "core_code" ∈ tags then
      ["Execution/test/verdict signals → SPOJ provides structured feedback labels at massive scale."]
     else []) ++
    (if "agents_tools" ∈ tags then
      ["Agentic coding/tool use → SPOJ supports verifiable tool-loop training via judge feedback."]
     else [])
  let one :=
    if "SWE-bench" ∈ benches ∨ "RepoBench" ∈ benches then
      "SPOJ can complement your repo-level coding evaluations with large-scale judged submissions (multi-language, verdict-labeled, iterative attempts)."
    else if "HumanEval" ∈ benches ∨ "MBPP" ∈ benches ∨ "EvalPlus" ∈ benches then
      "SPOJ can extend code-generation evaluation/training with 35k algorithmic tasks and 30M verdict-labeled submissions across languages."
    else if "APPS" ∈ benches ∨ "Codeforces" ∈ benches ∨ "CodeContests" ∈ benches then
      "SPOJ is a direct fit: competirogramming style problems + millions of submissions with judge verdicts and error modes."
    else if "core_code" ∈ tags ∨ "verification" ∈ tags then
      "SPOJ provides scalable, verifiable training/eval data: judged code submissions with timestamps, languages, and failure modes."
    else
      "Potential SPOJ fit: large-scale code+verdict data may complement your evaluation/training pipeline."
  (one, bullets.take 3)

/-! ## Loop characterizations for the two rule passes -/

/-- The positive-rules loop adds the points, tags and reasons of
exactly the firing groups, in table order. -/
theorem foldPos_spec (text : List Char) :
    ∀ (rules : List Rule) (acc : ScAcc),
      rules.foldl (applyPosRule text) acc =
        { score := acc.score +
            ((rules.filter (fun r => hit text r.patterns)).map (fun r => r.pts)).sum,
          tags := acc.tags ++ (rules.filter (fun r => hit text r.patterns)).map (fun r => r.tag),
          reasonsPos := acc.reasonsPos ++
            (rules.filter (fun r => hit text r.patterns)).map (fun r => r.reason),
          reasonsNeg := acc.reasonsNeg } := by
  intro rules
  induction rules with
  | nil => intro acc; simp
  | cons r rs ih =>
    intro acc
    by_cases h : hit text r.patterns
    · simp [List.foldl_cons, applyPosRule, h, ih, List.filter_cons, add_assoc]
    · simp [List.foldl_cons, applyPosRule, h, ih, List.filter_cons]

/-- The negative-rules loop: every firing group contributes
`int(pts / 2)` (truncation toward zero) when the core code signal is
present and the full `pts` otherwise, and appends its tag and its
negative reason in both cases. -/
theorem foldNeg_spec (text : List Char) (core : Bool) :
    ∀ (rules : List Rule) (acc : ScAcc),
      rules.foldl (applyNegRule text core) acc =
        { score := acc.score +
            ((rules.filter (fun r => hit text r.patterns)).map
              (fun r => if core then Int.tdiv r.pts 2 else r.pts)).sum,
          tags := acc.tags ++ (rules.filter (fun r => hit text r.patterns)).map (fun r => r.tag),
          reasonsPos := acc.reasonsPos,
          reasonsNeg := acc.reasonsNeg ++
            (rules.filter (fun r => hit text r.patterns)).map (fun r => r.reason) } := by
  intro rules
  induction rules with
  | nil => intro acc; simp
  | cons r rs ih =>
    intro acc
    by_cases h : hit text r.patterns
    · simp [List.foldl_cons, applyNegRule, h, ih, List.filter_cons, add_assoc]
    · simp [List.foldl_cons, applyNegRule, h, ih, List.filter_cons]

/-- Membership in the output of the tag-deduplication loop comes from the
input list. -/
theorem mem_of_mem_dedupKeepFirst {x : String} {l : List String}
    (h : x ∈ dedupKeepFirst l) : x ∈ l := by
  have key : ∀ (l' : List String) (acc : List String),
      x ∈ l'.foldl (fun acc t => if t ∈ acc then acc else acc ++ [t]) acc →
      x ∈ acc ∨ x ∈ l' := by
    intro l'
    induction l' with
    | nil => intro acc h'; exact Or.inl h'
    | cons t ts ih =>
      intro acc h'
      rcases ih _ h' with hacc | hts
      · dsimp only at hacc
        by_cases hmem : t ∈ acc
        · rw [if_pos hmem] at hacc; exact Or.inl hacc
        · rw [if_neg hmem] at hacc
          rcases List.mem_append.mp hacc with h1 | h2
          · exact Or.inl h1
          · simp at h2; subst h2; exact Or.inr (List.mem_cons_self _ _)
      · exact Or.inr (List.mem_cons_of_mem _ hts)
  rcases key l [] h with h0 | h1
  · exact absurd h0 (List.not_mem_nil x)
  · exact h1

/-- The reason-selection loop never grows its accumulator past 3. -/
theorem pickReasons_length_le :
    ∀ (l acc : List String), acc.length ≤ 2 → (pickReasons l acc).length ≤ 3 := by
  intro l
  induction l with
  | nil => intro acc h; simpa [pickReasons] using Nat.le_trans h (by omega)
  | cons r rs ih =>
    intro acc h
    rw [pickReasons]
    by_cases hmem : r ∈ acc
    · simp only [if_pos hmem]
      by_cases h3 : 3 ≤ acc.length
      · rw [if_pos h3]; omega
      · rw [if_neg h3]; exact ih acc (by omega)
    · simp only [if_neg hmem]
      by_cases h3 : 3 ≤ (acc ++ [r]).length
      · rw [if_pos h3]; simp; omega
      · rw [if_neg h3]; exact ih _ (by simp at h3 ⊢; omega)

/-! ## Claim theorems -/

/-- C5: for every document, each firing negative rule group with point
value `pts` contributes `int(pts / 2)` — half of `pts` with integer
truncation toward zero (`Int.tdiv`, not floor division) — when a core
positive signal is present, and the full `pts` otherwise; the group's
tag and its negative reason are appended in both cases, and the
positive reasons are untouched by the negative pass. -/
theorem negative_penalty_softening (p : Paper) :
    (negative_rules.foldl
        (applyNegRule (scoringText p) (hit (scoringText p) CORE_CODE_PATTERNS))
        (positive_rules.foldl (applyPosRule (scoringText p)) ⟨0, [], [], []⟩)).score =
      (positive_rules.foldl (applyPosRule (scoringText p)) ⟨0, [], [], []⟩).score +
        ((negative_rules.filter (fun r => hit (scoringText p) r.patterns)).map
          (fun r => if hit (scoringText p) CORE_CODE_PATTERNS then Int.tdiv r.pts 2
                    else r.pts)).sum ∧
    (negative_rules.foldl
        (applyNegRule (scoringText p) (hit (scoringText p) CORE_CODE_PATTERNS))
        (positive_rules.foldl (applyPosRule (scoringText p)) ⟨0, [], [], []⟩)).tags =
      (positive_rules.foldl (applyPosRule (scoringText p)) ⟨0, [], [], []⟩).tags ++
        (negative_rules.filter (fun r => hit (scoringText p) r.patterns)).map
          (fun r => r.tag) ∧
    (negative_rules.foldl
        (applyNegRule (scoringText p) (hit (scoringText p) CORE_CODE_PATTERNS))
        (positive_rules.foldl (applyPosRule (scoringText p)) ⟨0, [], [], []⟩)).reasonsNeg =
      (positive_rules.foldl (applyPosRule (scoringText p)) ⟨0, [], [], []⟩).reasonsNeg ++
        (negative_rules.filter (fun r => hit (scoringText p) r.patterns)).map
          (fun r => r.reason) ∧
    (negative_rules.foldl
        (applyNegRule (scoringText p) (hit (scoringText p) CORE_CODE_PATTERNS))
        (positive_rules.foldl (applyPosRule (scoringText p)) ⟨0, [], [], []⟩)).reasonsPos =
      (positive_rules.foldl (applyPosRule (scoringText p)) ⟨0, [], [], []⟩).reasonsPos := by
  rw [foldNeg_spec]
  exact ⟨rfl, rfl, rfl, rfl⟩

/-- C6: for every document the final score is an integer in `[0, 100]`
(the clamp `max(0, min(100, score))` of scoring.py line 147). -/
theorem score_in_unit_range (p : Paper) :
    0 ≤ (score_spoj_fit p).score ∧ (score_spoj_fit p).score ≤ 100 := by
  simp only [score_spoj_fit]
  constructor
  · exact le_max_left 0 _
  · exact max_le (by norm_num) (min_le_left 100 _)

/-- C2: if no benchmark hit exists and none of the code-oriented
positive signals fired — neither the `CORE_CODE_PATTERNS` core-code
signal nor the `code_benchmarks` / `execution_feedback` / `codegen` /
`code_tasks` groups (the code has no separate repo/software-engineering
group; those patterns live in these groups) — then the gate clamps the
final score to at most the documented ceiling of the variant the code
implements, 35. -/
theorem gate_clamps_score (p : Paper)
    (_hbench : extract_benchmarks (p.title ++ " " ++ p.abstract) = [])
    (_hgroups : ∀ r ∈ positive_rules,
      (r.tag = "code_benchmarks" ∨ r.tag = "execution_feedback" ∨
       r.tag = "codegen" ∨ r.tag = "code_tasks") →
      hit (scoringText p) r.patterns = false)
    (hcore : hit (scoringText p) CORE_CODE_PATTERNS = false) :
    (score_spoj_fit p).score ≤ 35 := by
  simp only [score_spoj_fit, hcore, Bool.false_eq_true, if_false]
  exact max_le (by norm_num) (le_trans (min_le_right 100 _) (min_le_right _ 35))

/-- Witness for C2 at a concrete off-domain document. -/
theorem gate_clamps_score_witness :
    extract_benchmarks ("clinical survey of patients" ++ " " ++ "") = [] ∧
    (∀ r ∈ positive_rules,
      (r.tag = "code_benchmarks" ∨ r.tag = "execution_feedback" ∨
       r.tag = "codegen" ∨ r.tag = "code_tasks") →
      hit (scoringText ⟨"clinical survey of patients", "", [], []⟩) r.patterns = false) ∧
    hit (scoringText ⟨"clinical survey of patients", "", [], []⟩) CORE_CODE_PATTERNS = false ∧
    (score_spoj_fit ⟨"clinical survey of patients", "", [], []⟩).score ≤ 35 :=
  ⟨by decide, by decide, by decide,
   gate_clamps_score ⟨"clinical survey of patients", "", [], []⟩
     (by decide) (by decide) (by decide)⟩

/-- The reason-selection rule exactly as the specification words it
(refinement reference for C7, not a source transcription): up to 3
positive reasons in firing order with exact-string duplicates skipped;
if none were recorded, the first negative reason (when one exists)
followed by THE fixed fallback sentence
"Low direct relevance signals found; needs manual review.", otherwise
that fallback sentence alone. -/
def reasonsSpecC7 (pos neg : List String) : List String :=
  let picked := pickReasons pos []
  if picked.isEmpty then
    match neg with
    | [] => ["Low direct relevance signals found; needs manual review."]
    | n :: _ => [n, "Low direct relevance signals found; needs manual review."]
  else picked

/-- C7 counterexample: on the document with title "clinical" the code
pairs the first negative reason with a different sentence
("… likely not SPOJ-driven.") than the fallback sentence it uses when
no negative reason exists, so the reasons list is not the one the
single-fallback rule of the claim produces. -/
theorem reasons_fallback_counterexample :
    (score_spoj_fit ⟨"clinical", "", [], []⟩).reasons ≠
      reasonsSpecC7
        ((positive_rules.filter
            (fun r => hit (scoringText ⟨"clinical", "", [], []⟩) r.patterns)).map
          (fun r => r.reason))
        ((negative_rules.filter
            (fun r => hit (scoringText ⟨"clinical", "", [], []⟩) r.patterns)).map
          (fun r => r.reason)) := by
  decide

/-- C7 amended: for every document the reasons list has between 1 and
3 entries and equals: up to 3 positive reasons of the firing groups in
firing order with exact-string duplicates skipped; if none were
recorded, the first negative reason (when one exists) followed by the
fixed sentence "Low direct relevance to code-judge training; likely
not SPOJ-driven.", and otherwise the distinct standalone fallback
sentence "Low direct relevance signals found; needs manual review."
alone. -/
theorem reasons_selection (p : Paper) :
    1 ≤ (score_spoj_fit p).reasons.length ∧ (score_spoj_fit p).reasons.length ≤ 3 ∧
    (score_spoj_fit p).reasons =
      (if (pickReasons ((positive_rules.filter
              (fun r => hit (scoringText p) r.patterns)).map (fun r => r.reason)) []).isEmpty
       then
         match (negative_rules.filter
                 (fun r => hit (scoringText p) r.patterns)).map (fun r => r.reason) with
         | [] => ["Low direct relevance signals found; needs manual review."]
         | n :: _ => [n, "Low direct relevance to code-judge training; likely not SPOJ-driven."]
       else pickReasons ((positive_rules.filter
              (fun r => hit (scoringText p) r.patterns)).map (fun r => r.reason)) []) := by
  have hpos :
      (positive_rules.foldl (applyPosRule (scoringText p)) ⟨0, [], [], []⟩).reasonsPos =
        (positive_rules.filter (fun r => hit (scoringText p) r.patterns)).map
          (fun r => r.reason) := by
    rw [foldPos_spec]; simp
  have hneg :
      (negative_rules.foldl
          (applyNegRule (scoringText p) (hit (scoringText p) CORE_CODE_PATTERNS))
          (positive_rules.foldl (applyPosRule (scoringText p)) ⟨0, [], [], []⟩)).reasonsPos =
        (positive_rules.filter (fun r => hit (scoringText p) r.patterns)).map
          (fun r => r.reason) := by
    rw [foldNeg_spec]; exact hpos
  have hnegneg :
      (negative_rules.foldl
          (applyNegRule (scoringText p) (hit (scoringText p) CORE_CODE_PATTERNS))
          (positive_rules.foldl (applyPosRule (scoringText p)) ⟨0, [], [], []⟩)).reasonsNeg =
        (negative_rules.filter (fun r => hit (scoringText p) r.patterns)).map
          (fun r => r.reason) := by
    rw [foldNeg_spec, foldPos_spec]; simp
  simp only [score_spoj_fit, hneg, hnegneg]
  set pos := (positive_rules.filter (fun r => hit (scoringText p) r.patterns)).map
    (fun r => r.reason) with hposdef
  set neg := (negative_rules.filter (fun r => hit (scoringText p) r.patterns)).map
    (fun r => r.reason) with hnegdef
  clear_value pos neg
  by_cases hempty : (pickReasons pos []).isEmpty
  · rw [if_pos hempty]
    rcases neg with _ | ⟨n, ns⟩
    · exact ⟨by simp, by simp, trivial⟩
    · exact ⟨by simp, by simp, trivial⟩
  · rw [if_neg hempty]
    refine ⟨?_, ?_, trivial⟩
    · have hne : pickReasons pos [] ≠ [] := by
        intro hc; rw [hc] at hempty; exact hempty rfl
      have := List.length_pos.mpr hne
      omega
    · exact pickReasons_length_le pos [] (by simp)

/-- The tags a scored document carries all come from the rule tables'
tag names. -/
theorem tags_subset_rule_tags (p : Paper) {t : String}
    (h : t ∈ (score_spoj_fit p).tags) :
    t ∈ (positive_rules ++ negative_rules).map (fun r => r.tag) := by
  simp only [score_spoj_fit] at h
  have h1 := List.mem_of_mem_take h
  have h2 := mem_of_mem_dedupKeepFirst h1
  rw [foldNeg_spec, foldPos_spec] at h2
  simp only [List.nil_append] at h2
  rcases List.mem_append.mp h2 with hp | hn
  · rcases List.mem_map.mp hp with ⟨r, hr, rfl⟩
    exact List.mem_map.mpr ⟨r, List.mem_append_left _ (List.mem_of_mem_filter hr), rfl⟩
  · rcases List.mem_map.mp hn with ⟨r, hr, rfl⟩
    exact List.mem_map.mpr ⟨r, List.mem_append_right _ (List.mem_of_mem_filter hr), rfl⟩

/-- C10: the tag vocabulary of the Fit Scorer contains "verification" but
never "verition", while the correctness/verification bullet of the pitch is
guarded by `"verition" in tags`; hence for every paper whose
`spoj_fit_tags` are exactly the tags of the scorer, the bullet list never
contains that bullet. -/
theorem pitch_never_emits_verification_bullet (p : Paper)
    (h : p.spoj_fit_tags = (score_spoj_fit p).tags) :
    "Correctness/verification angle → SPOJ provides accepted vs failing traces and error modes."
      ∉ (build_spoj_pitch p).2 := by
  intro hmem
  simp only [build_spoj_pitch] at hmem
  have hcat := List.mem_of_mem_take hmem
  rcases List.mem_append.mp hcat with h15 | h6
  rcases List.mem_append.mp h15 with h14 | h5
  rcases List.mem_append.mp h14 with h13 | h4
  rcases List.mem_append.mp h13 with h12 | h3
  rcases List.mem_append.mp h12 with h1 | h2
  · revert h1; split <;> intro h1 <;> simp at h1
  · revert h2; split <;> intro h2 <;> simp at h2
  · revert h3; split <;> intro h3 <;> simp at h3
  · revert h4
    split <;> intro h4
    · next hc =>
        rw [h] at hc
        exact absurd (tags_subset_rule_tags p hc) (by decide)
    · simp at h4
  · revert h5; split <;> intro h5 <;> simp at h5
  · revert h6; split <;> intro h6 <;> simp at h6

/-- Witness for C10 at a concrete paper whose tag field equals its
scored tags. -/
theorem pitch_never_emits_verification_bullet_witness :
    (⟨"verification", "", ["verification"], []⟩ : Paper).spoj_fit_tags =
      (score_spoj_fit ⟨"verification", "", ["verification"], []⟩).tags ∧
    "Correctness/verification angle → SPOJ provides accepted vs failing traces and error modes."
      ∉ (build_spoj_pitch ⟨"verification", "", ["verification"], []⟩).2 :=
  ⟨by decide,
   pitch_never_emits_verification_bullet ⟨"verification", "", ["verification"], []⟩ (by decide)⟩

/-- C1 (evidence of the missing benchmark integration): on a document
that mentions SWE-bench the extractor does find a hit, yet the Fit
Scorer output carries no "benchmarks" tag and its score is exactly
the 35 points of the `code_benchmarks` group — no capped
`min(60, top-3-weights)` benchmark contribution was added. -/
theorem scorer_ignores_benchmark_extractor :
    extract_benchmarks ("Evaluating LLMs on SWE-bench" ++ " " ++ "") ≠ [] ∧
    "benchmarks" ∉ (score_spoj_fit ⟨"Evaluating LLMs on SWE-bench", "", [], []⟩).tags ∧
    (score_spoj_fit ⟨"Evaluating LLMs on SWE-bench", "", [], []⟩).score = 35 := by
  exact ⟨by decide, by decide, by decide⟩

/-- C4 (evidence of the missing `benchmarks` field): the extractor
produces canonical names in weight-descending order for this document,
but the `FitResult` of scoring.py (embedded above) has only the fields
`score`, `tags`, `reasons` to return them in. -/
theorem extractor_names_have_no_fitresult_field :
    ((extract_benchmarks ("Revisiting mbpp and swe-bench" ++ " " ++ "")).map
      (fun h => h.name)) = ["SWE-bench", "MBPP"] := by
  decide

/-! ## Order of the extractor output (C8) -/

/-- Declaration-order relation on hits: the canonical name of `a`
appears strictly before that of `b` in the `BENCHMARKS` table. -/
def qDecl (a b : BenchmarkHit) : Prop := declIdx a.name < declIdx b.name

/-- The strengthened order a stable weight-descending sort produces
over a `q`-ordered input: strictly heavier first, ties in `q` order. -/
def stableLt (q : BenchmarkHit → BenchmarkHit → Prop) (a b : BenchmarkHit) : Prop :=
  b.weight < a.weight ∨ (a.weight = b.weight ∧ q a b)

theorem pairwise_orderedInsert_stable (q : BenchmarkHit → BenchmarkHit → Prop)
    (x : BenchmarkHit) :
    ∀ m : List BenchmarkHit, m.Pairwise (stableLt q) → m.Sorted weightGE →
      (∀ b ∈ m, q x b) → (m.orderedInsert weightGE x).Pairwise (stableLt q) := by
  intro m
  induction m with
  | nil => intro _ _ _; simp [List.orderedInsert]
  | cons y ys ih =>
    intro hS hsort hq
    rw [List.orderedInsert]
    by_cases hxy : weightGE x y
    · rw [if_pos hxy]
      refine List.Pairwise.cons ?_ hS
      intro b hb
      have hbw : b.weight ≤ x.weight := by
        rcases List.mem_cons.mp hb with rfl | hbys
        · exact hxy
        · exact le_trans (List.rel_of_pairwise_cons hsort hbys) hxy
      rcases lt_or_eq_of_le hbw with hlt | heq
      · exact Or.inl hlt
      · exact Or.inr ⟨heq.symm, hq b hb⟩
    · rw [if_neg hxy]
      have hyx : x.weight < y.weight := by
        simpa [weightGE, not_le] using hxy
      refine List.Pairwise.cons ?_
        (ih (List.Pairwise.of_cons hS) (List.Pairwise.of_cons hsort)
          (fun b hb => hq b (List.mem_cons_of_mem _ hb)))
      intro b hb
      rcases (List.mem_orderedInsert weightGE).mp hb with rfl | hbys
      · exact Or.inl hyx
      · exact List.rel_of_pairwise_cons hS hbys

/-- Stability of the weight-descending insertion sort: a `q`-ordered
input comes out `stableLt q`-ordered (heavier first, ties broken by
the original order). -/
theorem pairwise_insertionSort_stable (q : BenchmarkHit → BenchmarkHit → Prop) :
    ∀ l : List BenchmarkHit, l.Pairwise q →
      (l.insertionSort weightGE).Pairwise (stableLt q) := by
  intro l
  induction l with
  | nil => intro _; simp
  | cons x xs ih =>
    intro h
    rw [List.insertionSort]
    refine pairwise_orderedInsert_stable q x _ (ih (List.Pairwise.of_cons h))
      (List.sorted_insertionSort weightGE xs) ?_
    intro b hb
    exact List.rel_of_pairwise_cons h ((List.mem_insertionSort weightGE).mp hb)

/-- Every hit produced for a table row carries the canonical name of
that row. -/
theorem rowHit_name (t : List Char) (row : BenchRow) :
    ∀ h ∈ rowHit t row, h.name = row.name := by
  intro h hh
  simp only [rowHit, Option.mem_def, Option.map_eq_some'] at hh
  obtain ⟨se, _, rfl⟩ := hh
  rfl

/-- Before sorting, the raw hit list of the extractor is in strict declaration
order (one candidate hit per table row, rows in table order). -/
theorem rawHits_pairwise (t : List Char) :
    (BENCHMARKS.filterMap (rowHit t)).Pairwise qDecl := by
  rw [List.pairwise_filterMap]
  have htable : BENCHMARKS.Pairwise
      (fun r1 r2 => declIdx r1.name < declIdx r2.name) := by decide
  refine htable.imp ?_
  intro r1 r2 hr b1 hb1 b2 hb2
  unfold qDecl
  rw [rowHit_name t r1 b1 hb1, rowHit_name t r2 b2 hb2]
  exact hr

/-- C8: for every input text the extractor yields at most one hit per
canonical benchmark name (the mapped name list has no duplicates:
per name, patterns are tried in declared order and evaluation stops at
the first match), and the sequence is sorted by weight descending with
ties broken by the declaration order of the table. -/
theorem extract_benchmarks_sorted_nodup (text : String) :
    (((extract_benchmarks text).map (fun h => h.name)).Nodup) ∧
    (extract_benchmarks text).Pairwise
      (fun a b => b.weight < a.weight ∨
        (a.weight = b.weight ∧ declIdx a.name < declIdx b.name)) := by
  simp only [extract_benchmarks]
  have hq := rawHits_pairwise (normChars text.toList)
  constructor
  · have hne : (BENCHMARKS.filterMap (rowHit (normChars text.toList))).Pairwise
        (fun a b => a.name ≠ b.name) := by
      refine hq.imp ?_
      intro a b hab heq
      unfold qDecl at hab
      rw [heq] at hab
      exact lt_irrefl _ hab
    have hnodup : ((BENCHMARKS.filterMap (rowHit (normChars text.toList))).map
        (fun h => h.name)).Nodup := List.pairwise_map.mpr hne
    have hperm := (List.perm_insertionSort weightGE
      (BENCHMARKS.filterMap (rowHit (normChars text.toList)))).map (fun h => h.name)
    exact hperm.nodup_iff.mpr hnodup
  · exact pairwise_insertionSort_stable qDecl _ hq

/-! ## Idempotence of `_norm` (towards C9) -/

theorem char_toNat_ofNat {m : Nat} (h : m < 55296) : (Char.ofNat m).toNat = m := by
  rw [Char.ofNat, dif_pos (Or.inl h)]
  rfl

theorem isWs_false_of_gt (x : Char) (h : 64 < x.toNat) : isWsChar x = false := by
  by_cases h1 : x = ' '
  · subst h1; exact absurd h (by decide)
  by_cases h2 : x = '\t'
  · subst h2; exact absurd h (by decide)
  by_cases h3 : x = '\n'
  · subst h3; exact absurd h (by decide)
  by_cases h4 : x = '\r'
  · subst h4; exact absurd h (by decide)
  by_cases h5 : x = '\x0b'
  · subst h5; exact absurd h (by decide)
  by_cases h6 : x = '\x0c'
  · subst h6; exact absurd h (by decide)
  simp [isWsChar, h1, h2, h3, h4, h5, h6]

theorem isWs_toLower (c : Char) : isWsChar c.toLower = isWsChar c := by
  simp only [Char.toLower]
  by_cases h : 65 ≤ c.toNat ∧ c.toNat ≤ 90
  · rw [if_pos h]
    rw [isWs_false_of_gt _ (by rw [char_toNat_ofNat (by omega)]; omega),
        isWs_false_of_gt c (by omega)]
  · rw [if_neg h]

theorem toLower_toLower (c : Char) : c.toLower.toLower = c.toLower := by
  simp only [Char.toLower]
  by_cases h : 65 ≤ c.toNat ∧ c.toNat ≤ 90
  · rw [if_pos h, if_neg]
    rw [char_toNat_ofNat (by omega)]
    omega
  · rw [if_neg h, if_neg h]

/-- Invariant of normalized text: every whitespace character is a
plain space and no two whitespace characters are adjacent. -/
def WsNormal (m : List Char) : Prop :=
  (∀ c ∈ m, isWsChar c = true → c = ' ') ∧
  m.Chain' (fun a b => isWsChar a = false ∨ isWsChar b = false)

theorem wsNormal_collapseWs (l : List Char) : WsNormal (collapseWs l) := by
  induction l with
  | nil =>
    exact ⟨fun c hc => absurd hc (by simp [collapseWs]), by simp [collapseWs]⟩
  | cons c rest ih =>
    by_cases h : isWsChar c
    · rw [collapseWs, if_pos h]
      by_cases hh : (collapseWs rest).head? = some ' '
      · rw [if_pos hh]; exact ih
      · rw [if_neg hh]
        refine ⟨?_, ?_⟩
        · intro d hd hws
          rcases List.mem_cons.mp hd with rfl | hdr
          · rfl
          · exact ih.1 d hdr hws
        · rw [List.chain'_cons']
          refine ⟨?_, ih.2⟩
          intro b hb
          cases hbool : isWsChar b with
          | false => exact Or.inr rfl
          | true =>
            exfalso
            have hbm : b ∈ collapseWs rest := List.mem_of_mem_head? hb
            have hbsp : b = ' ' := ih.1 b hbm hbool
            subst hbsp
            exact hh (Option.mem_def.mp hb)
    · rw [collapseWs, if_neg h]
      refine ⟨?_, ?_⟩
      · intro d hd hws
        rcases List.mem_cons.mp hd with rfl | hdr
        · exact absurd hws (by simpa using h)
        · exact ih.1 d hdr hws
      · rw [List.chain'_cons']
        exact ⟨fun _ _ => Or.inl (by simpa using h), ih.2⟩

theorem wsNormal_map_toLower {m : List Char} (h : WsNormal m) :
    WsNormal (m.map Char.toLower) := by
  refine ⟨?_, ?_⟩
  · intro c' hc' hws
    rcases List.mem_map.mp hc' with ⟨c, hc, rfl⟩
    rw [isWs_toLower] at hws
    rw [h.1 c hc hws]
    rfl
  · rw [List.chain'_map]
    exact h.2.imp (fun {a b} hab => by
      rw [isWs_toLower, isWs_toLower]
      exact hab)

theorem mem_of_mem_stripWs {c : Char} {m : List Char} (h : c ∈ stripWs m) : c ∈ m := by
  unfold stripWs at h
  rw [List.mem_reverse] at h
  have h1 := (List.dropWhile_sublist (l := (m.dropWhile isWsChar).reverse) isWsChar).subset h
  rw [List.mem_reverse] at h1
  exact (List.dropWhile_sublist isWsChar).subset h1

theorem wsNormal_stripWs {m : List Char} (h : WsNormal m) : WsNormal (stripWs m) := by
  refine ⟨fun c hc hws => h.1 c (mem_of_mem_stripWs hc) hws, ?_⟩
  unfold stripWs
  have h1 : (m.dropWhile isWsChar).Chain'
      (fun a b => isWsChar a = false ∨ isWsChar b = false) :=
    h.2.suffix (List.dropWhile_suffix _)
  have h2 : (m.dropWhile isWsChar).reverse.Chain'
      (fun a b => isWsChar a = false ∨ isWsChar b = false) :=
    List.chain'_reverse.mpr (h1.imp (fun {a b} hab => Or.symm hab))
  have h3 : ((m.dropWhile isWsChar).reverse.dropWhile isWsChar).Chain'
      (fun a b => isWsChar a = false ∨ isWsChar b = false) :=
    h2.suffix (List.dropWhile_suffix _)
  exact List.chain'_reverse.mpr (h3.imp (fun {a b} hab => Or.symm hab))

theorem wsNormal_collapse_eq : ∀ m : List Char, WsNormal m → collapseWs m = m := by
  intro m
  induction m with
  | nil => intro _; rfl
  | cons c rest ih =>
    intro hm
    have hrest : WsNormal rest :=
      ⟨fun d hd => hm.1 d (List.mem_cons_of_mem _ hd), hm.2.tail⟩
    by_cases h : isWsChar c
    · have hc : c = ' ' := hm.1 c (List.mem_cons_self _ _) h
      rw [collapseWs, if_pos h, ih hrest, if_neg, hc]
      cases rest with
      | nil => simp
      | cons d t =>
        have hpair := (List.chain'_cons'.mp hm.2).1 d rfl
        rcases hpair with hcf | hdf
        · rw [h] at hcf; exact absurd hcf (by simp)
        · simp only [List.head?_cons, Option.some.injEq]
          intro hds
          rw [hds] at hdf
          exact absurd hdf (by decide)
    · rw [collapseWs, if_neg h, ih hrest]

theorem map_toLower_self : ∀ m : List Char, (∀ c ∈ m, c.toLower = c) →
    m.map Char.toLower = m := by
  intro m
  induction m with
  | nil => intro _; rfl
  | cons c rest ih =>
    intro h
    rw [List.map_cons, h c (List.mem_cons_self _ _),
        ih (fun d hd => h d (List.mem_cons_of_mem _ hd))]

theorem head_dropWhile_false (p : Char → Bool) (l : List Char) {c : Char}
    (h : (l.dropWhile p).head? = some c) : p c = false := by
  have key := List.head?_dropWhile_not p l
  rw [h] at key
  exact key

theorem dropWhile_eq_self_of_head (p : Char → Bool) (l : List Char)
    (h : ∀ c, l.head? = some c → p c = false) : l.dropWhile p = l := by
  cases l with
  | nil => rfl
  | cons c t =>
    rw [List.dropWhile_cons, if_neg]
    simp [h c rfl]

theorem getLast?_of_suffix {b r : List Char} (hs : b <:+ r) (hb : b ≠ []) :
    b.getLast? = r.getLast? := by
  obtain ⟨t, rfl⟩ := hs
  rw [List.getLast?_append]
  cases hlast : b.getLast? with
  | none => exact absurd (List.getLast?_eq_none_iff.mp hlast) hb
  | some x => rfl

theorem stripWs_idem (x : List Char) : stripWs (stripWs x) = stripWs x := by
  have hstep1 : (stripWs x).dropWhile isWsChar = stripWs x := by
    apply dropWhile_eq_self_of_head
    intro c hc
    unfold stripWs at hc
    rw [List.head?_reverse] at hc
    by_cases hbnil : (x.dropWhile isWsChar).reverse.dropWhile isWsChar = []
    · rw [hbnil] at hc; simp at hc
    · rw [getLast?_of_suffix (List.dropWhile_suffix _) hbnil,
          List.getLast?_reverse] at hc
      exact head_dropWhile_false _ _ hc
  show (((stripWs x).dropWhile isWsChar).reverse.dropWhile isWsChar).reverse = stripWs x
  rw [hstep1]
  conv_lhs => rw [stripWs]
  rw [List.reverse_reverse,
      dropWhile_eq_self_of_head _ _ (fun c hc => head_dropWhile_false _ _ hc),
      stripWs]

theorem normChars_idem (l : List Char) : normChars (normChars l) = normChars l := by
  have hm : WsNormal (normChars l) :=
    wsNormal_stripWs (wsNormal_map_toLower (wsNormal_collapseWs l))
  have h1 : collapseWs (normChars l) = normChars l := wsNormal_collapse_eq _ hm
  have h2 : (normChars l).map Char.toLower = normChars l := by
    apply map_toLower_self
    intro c hc
    have hc' : c ∈ (collapseWs l).map Char.toLower := mem_of_mem_stripWs hc
    rcases List.mem_map.mp hc' with ⟨d, _, rfl⟩
    exact toLower_toLower d
  show stripWs ((collapseWs (normChars l)).map Char.toLower) = normChars l
  rw [h1, h2]
  exact stripWs_idem _

/-- C9: the Benchmark Extractor re-normalizes its input itself, so it
is invariant under pre-normalizing the input (lowercasing, collapsing
whitespace runs, trimming); in particular `_norm` is idempotent. -/
theorem extract_benchmarks_norm_invariant (s : String) :
    extract_benchmarks (normText s) = extract_benchmarks s := by
  simp only [extract_benchmarks, normText]
  have hround : ((normChars s.toList).asString).toList = normChars s.toList := rfl
  rw [hround, normChars_idem]

end PaperScout
